import Mathlib

/-
Verification of the context-free-grammar ambiguity checker (chicker.py).

The grammar model and the memoized derivation counter are embedded shallowly:
Python strings become lists of characters, the rules dict becomes an
insertion-ordered association list, the two Python sets become lists grown by
membership-checked insertion, and the instance state of AmbiguityChecker
(the grammar reference plus the memo dict) becomes an explicit Checker value
threaded through the recursion.  The mutually recursive pair
_count_derivations / _count_prod_derivations (together with the inline loops
over productions and over split points) is modelled as a single fuel-indexed
interpreter over a request type; fuel bounds the recursion depth, and a result
of none models a computation that has not terminated within the given bound
(the Python code has no cycle detection and can recurse forever).
A separate reference interpreter refRun implements the brute-force,
non-memoized enumeration described by the specification.
-/

/-- A symbol is a string token, modelled as its character sequence. -/
abbrev Symb := List Char

/-- A production is an ordered sequence of symbols (empty = epsilon). -/
abbrev Production := List Symb

/-- A target string, modelled as its character sequence. -/
abbrev Str := List Char

/-- Python str.isupper restricted to ASCII: at least one cased character and
no cased character is lowercase. -/
def pyIsUpper (s : Symb) : Bool :=
  s.any Char.isAlpha && s.all fun c => !c.isLower

/-- The grammar model of class CFG: the rules mapping (insertion ordered),
the non-terminal set and the terminal set. -/
structure CFG where
  rules : List (Symb × List Production)
  non_terminals : List Symb
  terminals : List Symb
deriving DecidableEq

/-- CFG.__init__: empty rules, empty symbol sets. -/
def CFG.empty : CFG := ⟨[], [], []⟩

/-- Set insertion: add an element unless it is already present
(models Python set.add). -/
def addSet (s : List Symb) (x : Symb) : List Symb :=
  if x ∈ s then s else s ++ [x]

/-- One iteration of the classification loop in CFG.add_rule: an uppercase
symbol goes to the non-terminal set, any other symbol to the terminal set. -/
def addSymbol (sets : List Symb × List Symb) (symbol : Symb) :
    List Symb × List Symb :=
  if pyIsUpper symbol then (addSet sets.1 symbol, sets.2)
  else (sets.1, addSet sets.2 symbol)

/-- self.rules[non_terminal].append(symbols) on a defaultdict(list): append to
the existing entry, or create a new entry at the end of the mapping. -/
def rulesAppend (rules : List (Symb × List Production)) (non_terminal : Symb)
    (symbols : Production) : List (Symb × List Production) :=
  match rules with
  | [] => [(non_terminal, [symbols])]
  | (k, ps) :: rest =>
    if k = non_terminal then (k, ps ++ [symbols]) :: rest
    else (k, ps) :: rulesAppend rest non_terminal symbols

/-- CFG.add_rule: register the left-hand side as a non-terminal, append the
production, and classify every symbol of the production. -/
def add_rule (cfg : CFG) (non_terminal : Symb) (symbols : Production) : CFG :=
  let sets := symbols.foldl addSymbol (addSet cfg.non_terminals non_terminal, cfg.terminals)
  { rules := rulesAppend cfg.rules non_terminal symbols
    non_terminals := sets.1
    terminals := sets.2 }

/-- A sequence of add_rule calls starting from the empty grammar. -/
def addRules (cfg : CFG) (calls : List (Symb × Production)) : CFG :=
  calls.foldl (fun c call => add_rule c call.1 call.2) cfg

/-- self.rules.get(non_terminal) - a non-mutating dictionary lookup. -/
def lookupRules : List (Symb × List Production) → Symb → Option (List Production)
  | [], _ => none
  | (k, ps) :: rest, nt => if k = nt then some ps else lookupRules rest nt

/-- CFG.get_rules: the registered productions, or the empty list when the
symbol has no entry (dict.get with default, which never adds an entry). -/
def get_rules (cfg : CFG) (non_terminal : Symb) : List Production :=
  match lookupRules cfg.rules non_terminal with
  | some ps => ps
  | none => []

/-- The two key shapes of the shared memo dict: (symbol, string) keys from
_count_derivations and (tuple(production), string) keys from
_count_prod_derivations.  A Python str never equals a tuple, so the two
families of keys never collide; the two constructors model that. -/
inductive MemoKey where
  | symKey (symbol : Symb) (string : Str)
  | prodKey (production : Production) (string : Str)
deriving DecidableEq

/-- The memo dict, as an association list (newest entry first). -/
abbrev Memo := List (MemoKey × Nat)

/-- Dictionary lookup in the memo. -/
def lookupMemo : Memo → MemoKey → Option Nat
  | [], _ => none
  | (k, n) :: rest, key => if k = key then some n else lookupMemo rest key

/-- The mutable state of an AmbiguityChecker instance: the grammar reference
and the owned memo dict. -/
structure Checker where
  cfg : CFG
  memo : Memo
deriving DecidableEq

/-- self.memo[key] = count. -/
def insertMemo (st : Checker) (key : MemoKey) (count : Nat) : Checker :=
  ⟨st.cfg, (key, count) :: st.memo⟩

/-- AmbiguityChecker._is_terminal: a symbol is terminal exactly when it is not
in the grammar's non-terminal set. -/
def isTerminal (cfg : CFG) (symbol : Symb) : Bool :=
  decide (symbol ∉ cfg.non_terminals)

/-- The pending-call shapes of the recursion: a _count_derivations call, the
inline summation loop over a list of productions, a _count_prod_derivations
call, and the inline split-point loop of _count_prod_derivations. -/
inductive Req where
  | sym (symbol : Symb) (string : Str)
  | prods (prods : List Production) (string : Str)
  | prod (production : Production) (string : Str)
  | splits (first : Symb) (rest : Production) (string : Str) (i : Nat)
deriving DecidableEq

/-- One layer of the memoized recursion of AmbiguityChecker, parameterised by
the recursive-callback rec.  Translated clause by clause from
_count_derivations and _count_prod_derivations. -/
def stepMemo (rec : Checker → Req → Option (Nat × Checker)) (st : Checker) :
    Req → Option (Nat × Checker)
  | .sym symbol string =>
    match lookupMemo st.memo (.symKey symbol string) with
    | some n => some (n, st)
    | none =>
      if isTerminal st.cfg symbol then
        some (if string = symbol then 1 else 0,
          insertMemo st (.symKey symbol string) (if string = symbol then 1 else 0))
      else
        match rec st (.prods (get_rules st.cfg symbol) string) with
        | none => none
        | some (count, st') => some (count, insertMemo st' (.symKey symbol string) count)
  | .prods [] _ => some (0, st)
  | .prods (p :: ps) string =>
    match rec st (.prod p string) with
    | none => none
    | some (c, st') =>
      match rec st' (.prods ps string) with
      | none => none
      | some (cs, st'') => some (c + cs, st'')
  | .prod production string =>
    match lookupMemo st.memo (.prodKey production string) with
    | some n => some (n, st)
    | none =>
      match production with
      | [] =>
        some (if string = [] then 1 else 0,
          insertMemo st (.prodKey production string) (if string = [] then 1 else 0))
      | first :: rest =>
        match rec st (.splits first rest string 0) with
        | none => none
        | some (count, st') => some (count, insertMemo st' (.prodKey production string) count)
  | .splits first rest string i =>
    if string.length < i then some (0, st)
    else
      match rec st (.sym first (string.take i)) with
      | none => none
      | some (firstCount, st') =>
        if 0 < firstCount then
          match rec st' (.prod rest (string.drop i)) with
          | none => none
          | some (restCount, st'') =>
            match rec st'' (.splits first rest string (i + 1)) with
            | none => none
            | some (acc, st3) => some (firstCount * restCount + acc, st3)
        else rec st' (.splits first rest string (i + 1))

/-- The memoized counter: _count_derivations / _count_prod_derivations with an
explicit recursion-depth bound.  none means the bound was exhausted; the
Python original would still be recursing. -/
def run : Nat → Checker → Req → Option (Nat × Checker)
  | 0, _, _ => none
  | fuel + 1, st, req => stepMemo (run fuel) st req

/-- One layer of the brute-force reference count, following the specification:
the same recursive decomposition with no memo cache. -/
def stepRef (cfg : CFG) (rec : Req → Option Nat) : Req → Option Nat
  | .sym symbol string =>
    if isTerminal cfg symbol then some (if string = symbol then 1 else 0)
    else rec (.prods (get_rules cfg symbol) string)
  | .prods [] _ => some 0
  | .prods (p :: ps) string =>
    match rec (.prod p string) with
    | none => none
    | some c =>
      match rec (.prods ps string) with
      | none => none
      | some cs => some (c + cs)
  | .prod production string =>
    match production with
    | [] => some (if string = [] then 1 else 0)
    | first :: rest => rec (.splits first rest string 0)
  | .splits first rest string i =>
    if string.length < i then some 0
    else
      match rec (.sym first (string.take i)) with
      | none => none
      | some firstCount =>
        if 0 < firstCount then
          match rec (.prod rest (string.drop i)) with
          | none => none
          | some restCount =>
            match rec (.splits first rest string (i + 1)) with
            | none => none
            | some acc => some (firstCount * restCount + acc)
        else rec (.splits first rest string (i + 1))

/-- The brute-force reference enumeration (no memoization), with the same
recursion-depth bound discipline as run. -/
def refRun (cfg : CFG) : Nat → Req → Option Nat
  | 0, _ => none
  | fuel + 1, req => stepRef cfg (refRun cfg fuel) req

/-- The console output of check, one event per print statement. -/
inductive OutEvent where
  | errorInvalidStart (symbol : Symb)
  | checking (string : Str) (symbol : Symb)
  | parseTreeCount (count : Nat)
  | ambiguous
  | notAmbiguous
  | cannotDerive
deriving DecidableEq

/-- The classification printed by check: count > 1 ambiguous, count == 1 not
ambiguous, otherwise the string cannot be derived. -/
def classify (count : Nat) : OutEvent :=
  if 1 < count then .ambiguous else if count = 1 then .notAmbiguous else .cannotDerive

/-- AmbiguityChecker.check: clear the memo, reject an unregistered start
symbol (printing an error and returning (False, 0)), otherwise count
derivations from a fresh memo and return (count > 1, count) together with the
printed report.  none models a counting recursion that exceeds the bound. -/
def check (st : Checker) (start_symbol : Symb) (string : Str) (fuel : Nat) :
    Option ((List OutEvent × Bool × Nat) × Checker) :=
  if start_symbol ∉ st.cfg.non_terminals then
    some (([.errorInvalidStart start_symbol], false, 0), ⟨st.cfg, []⟩)
  else
    match run fuel ⟨st.cfg, []⟩ (.sym start_symbol string) with
    | none => none
    | some (count, st') =>
      some (([.checking string start_symbol, .parseTreeCount count, classify count],
        decide (1 < count), count), st')

/-- Concrete symbols used by the concrete grammars below. -/
def cS : Symb := ['S']

def cA : Symb := ['A']

def ca : Symb := ['a']

def cb : Symb := ['b']

def cab : Symb := ['a', 'b']

def cx : Symb := ['x']

/-- Grammar S -> S S | a (the left-recursive Catalan grammar of scenario 6). -/
def cfgCat : CFG := addRules CFG.empty [(cS, [cS, cS]), (cS, [ca])]

/-- The productions registered for S in cfgCat. -/
def prodsCat : List Production := [[cS, cS], [ca]]

/-- Grammar S -> a S | a (right recursion, terminating). -/
def cfgRight : CFG := addRules CFG.empty [(cS, [ca, cS]), (cS, [ca])]

/-- cfgRight extended with an exact duplicate of the production S -> a. -/
def cfgRightDup : CFG := add_rule cfgRight cS [ca]

/-- Grammar S -> a S b | epsilon (scenario 1, unambiguous). -/
def cfgNest : CFG := addRules CFG.empty [(cS, [ca, cS, cb]), (cS, [])]

/-- Grammar S -> ab, with the two-character terminal token ab. -/
def cfgAB : CFG := addRules CFG.empty [(cS, [cab])]

/-- Grammar S -> A, where A never gets a rule of its own. -/
def cfgNoRule : CFG := addRules CFG.empty [(cS, [cA])]

/-- Grammar S -> epsilon. -/
def cfgEps : CFG := addRules CFG.empty [(cS, [])]

/-- The symbols occurring in a list of productions, in order. -/
def symbolsOfProds : List Production → List Symb
  | [] => []
  | p :: ps => p ++ symbolsOfProds ps

/-- All symbols referenced on a right-hand side anywhere in a rules mapping. -/
def prodSymbols : List (Symb × List Production) → List Symb
  | [] => []
  | (_, ps) :: rest => symbolsOfProds ps ++ prodSymbols rest

/-- The registered left-hand sides of a rules mapping. -/
def lhsKeys (rules : List (Symb × List Production)) : List Symb :=
  rules.map Prod.fst

/-- The documented grammar invariant: every referenced symbol lies in exactly
one of the two symbol sets, and every registered left-hand side is a
non-terminal. -/
def grammarInvariant (cfg : CFG) : Prop :=
  (∀ x ∈ prodSymbols cfg.rules,
      (x ∈ cfg.non_terminals ∧ x ∉ cfg.terminals) ∨
      (x ∉ cfg.non_terminals ∧ x ∈ cfg.terminals)) ∧
  ∀ x ∈ lhsKeys cfg.rules, x ∈ cfg.non_terminals

/-- Strengthened induction invariant: the non-terminal set holds only
uppercase symbols, the terminal set only non-uppercase ones, every referenced
symbol is tracked, and every left-hand side is a non-terminal. -/
def strongInv (cfg : CFG) : Prop :=
  (∀ x ∈ cfg.non_terminals, pyIsUpper x = true) ∧
  (∀ x ∈ cfg.terminals, pyIsUpper x = false) ∧
  (∀ x ∈ prodSymbols cfg.rules, x ∈ cfg.non_terminals ∨ x ∈ cfg.terminals) ∧
  ∀ x ∈ lhsKeys cfg.rules, x ∈ cfg.non_terminals

/-- The request a memo entry caches the answer of. -/
def keyReq : MemoKey → Req
  | .symKey symbol string => .sym symbol string
  | .prodKey production string => .prod production string

/-- A memo is valid for a grammar when every cached count is the reference
count of its request, for a sufficiently large recursion bound. -/
def ValidMemo (cfg : CFG) (memo : Memo) : Prop :=
  ∀ k n, lookupMemo memo k = some n → ∃ f, refRun cfg f (keyReq k) = some n

/-- The simulation relation between a reference callback and a memoized
callback: whenever the reference answers, the memoized computation answers
identically from any valid state over the same grammar, and leaves a valid
state over the same grammar. -/
def Sim (cfg : CFG) (rec : Req → Option Nat)
    (recM : Checker → Req → Option (Nat × Checker)) : Prop :=
  ∀ req st n, st.cfg = cfg → ValidMemo cfg st.memo → rec req = some n →
    ∃ st', recM st req = some (n, st') ∧ st'.cfg = cfg ∧ ValidMemo cfg st'.memo

/-- The checker bound to cfgCat with a cleared memo. -/
def stCat : Checker := ⟨cfgCat, []⟩

/-- The target string aaa. -/
def sAAA : Str := ['a', 'a', 'a']

/-- The target string aa. -/
def sAA : Str := ['a', 'a']

/-- The target string ab. -/
def sAB : Str := ['a', 'b']

/-- The target string aabb. -/
def sAABB : Str := ['a', 'a', 'b', 'b']

instance (cfg : CFG) : Decidable (grammarInvariant cfg) := by
  unfold grammarInvariant; infer_instance

instance (cfg : CFG) : Decidable (strongInv cfg) := by
  unfold strongInv; infer_instance

theorem run_zero (st : Checker) (req : Req) : run 0 st req = none := rfl

theorem run_succ (fuel : Nat) (st : Checker) (req : Req) :
    run (fuel + 1) st req = stepMemo (run fuel) st req := rfl

theorem refRun_zero (cfg : CFG) (req : Req) : refRun cfg 0 req = none := rfl

theorem refRun_succ (cfg : CFG) (fuel : Nat) (req : Req) :
    refRun cfg (fuel + 1) req = stepRef cfg (refRun cfg fuel) req := rfl

theorem insertMemo_cfg (st : Checker) (k : MemoKey) (c : Nat) :
    (insertMemo st k c).cfg = st.cfg := rfl

/-- One step of the memoized recursion never touches the grammar: every CFG
access in the source is a non-mutating read. -/
theorem stepMemo_frame {rec : Checker → Req → Option (Nat × Checker)}
    (hrec : ∀ st req n st', rec st req = some (n, st') → st'.cfg = st.cfg) :
    ∀ st req n st', stepMemo rec st req = some (n, st') → st'.cfg = st.cfg := by
  intro st req n st' h
  cases req with
  | sym symbol string =>
    simp only [stepMemo] at h
    split at h
    · cases h; rfl
    · split at h
      · cases h; rfl
      · split at h
        · exact Option.noConfusion h
        · next _x count st1 heq =>
            cases h
            show st1.cfg = st.cfg
            exact hrec _ _ _ _ heq
  | prods ps string =>
    cases ps with
    | nil => simp only [stepMemo] at h; cases h; rfl
    | cons p ps =>
      simp only [stepMemo] at h
      split at h
      · exact Option.noConfusion h
      · next _x c st1 heq1 =>
          split at h
          · exact Option.noConfusion h
          · next _x cs st2 heq2 =>
              cases h
              exact (hrec _ _ _ _ heq2).trans (hrec _ _ _ _ heq1)
  | prod production string =>
    simp only [stepMemo] at h
    split at h
    · cases h; rfl
    · cases production with
      | nil => simp only at h; cases h; rfl
      | cons first rest =>
        simp only at h
        split at h
        · exact Option.noConfusion h
        · next _x count st1 heq =>
            cases h
            show st1.cfg = st.cfg
            exact hrec _ _ _ _ heq
  | splits first rest string i =>
    simp only [stepMemo] at h
    split at h
    · cases h; rfl
    · split at h
      · exact Option.noConfusion h
      · next _x fc st1 heq1 =>
          split at h
          · split at h
            · exact Option.noConfusion h
            · next _x rc st2 heq2 =>
                split at h
                · exact Option.noConfusion h
                · next _x acc st3 heq3 =>
                    cases h
                    exact ((hrec _ _ _ _ heq3).trans
                      (hrec _ _ _ _ heq2)).trans (hrec _ _ _ _ heq1)
          · exact (hrec _ _ _ _ h).trans (hrec _ _ _ _ heq1)

/-- The counting recursion never changes the grammar component of the state. -/
theorem run_frame :
    ∀ fuel st req n st', run fuel st req = some (n, st') → st'.cfg = st.cfg := by
  intro fuel
  induction fuel with
  | zero => intro st req n st' h; rw [run_zero] at h; exact Option.noConfusion h
  | succ f ih =>
    intro st req n st' h
    rw [run_succ] at h
    exact stepMemo_frame ih st req n st' h

/-- One reference step is monotone in its recursive callback. -/
theorem stepRef_mono {cfg : CFG} {rec rec' : Req → Option Nat}
    (hrec : ∀ r m, rec r = some m → rec' r = some m) :
    ∀ req n, stepRef cfg rec req = some n → stepRef cfg rec' req = some n := by
  intro req n h
  cases req with
  | sym symbol string =>
    simp only [stepRef] at h ⊢
    by_cases ht : isTerminal cfg symbol
    · simpa [ht] using h
    · simp only [ht, if_false] at h ⊢
      exact hrec _ _ h
  | prods ps string =>
    cases ps with
    | nil => exact h
    | cons p ps =>
      simp only [stepRef] at h ⊢
      split at h
      · exact Option.noConfusion h
      · next _x c heq1 =>
          split at h
          · exact Option.noConfusion h
          · next _x cs heq2 =>
              rw [hrec _ _ heq1, hrec _ _ heq2]
              exact h
  | prod production string =>
    cases production with
    | nil => exact h
    | cons first rest =>
      simp only [stepRef] at h ⊢
      exact hrec _ _ h
  | splits first rest string i =>
    simp only [stepRef] at h ⊢
    by_cases hi : string.length < i
    · simpa [hi] using h
    · simp only [hi, if_false] at h ⊢
      split at h
      · exact Option.noConfusion h
      · next _x fc heq1 =>
          rw [hrec _ _ heq1]
          by_cases hfc : 0 < fc
          · simp only [hfc, if_true] at h ⊢
            split at h
            · exact Option.noConfusion h
            · next _x rc heq2 =>
                split at h
                · exact Option.noConfusion h
                · next _x acc heq3 =>
                    rw [hrec _ _ heq2, hrec _ _ heq3]
                    exact h
          · simp only [hfc, if_false] at h ⊢
            exact hrec _ _ h

/-- The reference count is monotone in the recursion bound (one step). -/
theorem refRun_mono_succ (cfg : CFG) :
    ∀ fuel req n, refRun cfg fuel req = some n → refRun cfg (fuel + 1) req = some n := by
  intro fuel
  induction fuel with
  | zero => intro req n h; rw [refRun_zero] at h; exact Option.noConfusion h
  | succ f ih =>
    intro req n h
    rw [refRun_succ] at h
    rw [refRun_succ]
    exact stepRef_mono ih req n h

/-- The reference count is monotone in the recursion bound. -/
theorem refRun_mono (cfg : CFG) {f g : Nat} (hfg : f ≤ g) :
    ∀ req n, refRun cfg f req = some n → refRun cfg g req = some n := by
  obtain ⟨k, rfl⟩ := Nat.exists_eq_add_of_le hfg
  clear hfg
  induction k with
  | zero => intro req n h; exact h
  | succ k ih =>
    intro req n h
    have := ih req n h
    rw [← Nat.add_assoc] at *
    exact refRun_mono_succ cfg (f + k) req n (by simpa using this)

/-- Two successful reference counts of the same request agree, whatever the
bounds. -/
theorem refRun_det (cfg : CFG) {f g : Nat} {req : Req} {a b : Nat}
    (ha : refRun cfg f req = some a) (hb : refRun cfg g req = some b) : a = b := by
  have ha' := refRun_mono cfg (Nat.le_max_left f g) req a ha
  have hb' := refRun_mono cfg (Nat.le_max_right f g) req b hb
  rw [ha'] at hb'
  exact (Option.some.injEq _ _).mp hb'

theorem validMemo_nil (cfg : CFG) : ValidMemo cfg [] := by
  intro k n h
  exact Option.noConfusion h

theorem validMemo_insert {cfg : CFG} {memo : Memo} (hv : ValidMemo cfg memo)
    {k : MemoKey} {v : Nat} (hk : ∃ f, refRun cfg f (keyReq k) = some v) :
    ValidMemo cfg ((k, v) :: memo) := by
  intro k' n h
  simp only [lookupMemo] at h
  by_cases hkk : k = k'
  · subst hkk
    simp only [if_pos rfl] at h
    cases h
    exact hk
  · rw [if_neg hkk] at h
    exact hv k' n h

theorem validMemo_insertMemo {cfg : CFG} {st : Checker} (hv : ValidMemo cfg st.memo)
    {k : MemoKey} {v : Nat} (hk : ∃ f, refRun cfg f (keyReq k) = some v) :
    ValidMemo cfg (insertMemo st k v).memo :=
  validMemo_insert hv hk

/-- One step of the simulation between the brute-force reference and the
memoized recursion: a memo hit returns the reference count of its key (memo
validity plus determinism), a memo miss recomputes exactly the reference
decomposition and caches a reference-correct entry. -/
theorem sim_step (cfg : CFG) (fuel : Nat)
    (ih : Sim cfg (refRun cfg fuel) (run fuel)) :
    Sim cfg (refRun cfg (fuel + 1)) (run (fuel + 1)) := by
  intro req st n hcfg hvalid h
  cases req with
  | sym symbol string =>
    cases hm : lookupMemo st.memo (.symKey symbol string) with
    | some m =>
      obtain ⟨f', hf'⟩ := hvalid _ m hm
      have hmn : m = n := refRun_det cfg hf' h
      refine ⟨st, ?_, hcfg, hvalid⟩
      rw [run_succ]
      simp only [stepMemo, hm, hmn]
    | none =>
      have hstep := h
      rw [refRun_succ] at hstep
      simp only [stepRef] at hstep
      by_cases ht : isTerminal cfg symbol = true
      · rw [if_pos ht] at hstep
        have hn : (if string = symbol then 1 else 0) = n :=
          (Option.some.injEq _ _).mp hstep
        refine ⟨insertMemo st (.symKey symbol string) n, ?_, ?_, ?_⟩
        · rw [run_succ]
          simp only [stepMemo, hm, hcfg, if_pos ht, hn]
        · rw [insertMemo_cfg]; exact hcfg
        · exact validMemo_insertMemo hvalid ⟨fuel + 1, h⟩
      · rw [if_neg ht] at hstep
        obtain ⟨st1, hrun1, hcfg1, hvalid1⟩ := ih _ st n hcfg hvalid hstep
        refine ⟨insertMemo st1 (.symKey symbol string) n, ?_, ?_, ?_⟩
        · rw [run_succ]
          simp only [stepMemo, hm, hcfg, if_neg ht, hrun1]
        · rw [insertMemo_cfg]; exact hcfg1
        · exact validMemo_insertMemo hvalid1 ⟨fuel + 1, h⟩
  | prods ps string =>
    cases ps with
    | nil =>
      have hstep := h
      rw [refRun_succ] at hstep
      simp only [stepRef] at hstep
      have hn : (0 : Nat) = n := (Option.some.injEq _ _).mp hstep
      refine ⟨st, ?_, hcfg, hvalid⟩
      rw [run_succ]
      simp only [stepMemo, hn]
    | cons p ps =>
      have hstep := h
      rw [refRun_succ] at hstep
      simp only [stepRef] at hstep
      split at hstep
      · exact Option.noConfusion hstep
      · next _x c heq1 =>
          split at hstep
          · exact Option.noConfusion hstep
          · next _x cs heq2 =>
              cases hstep
              obtain ⟨st1, hrun1, hcfg1, hvalid1⟩ := ih _ st c hcfg hvalid heq1
              obtain ⟨st2, hrun2, hcfg2, hvalid2⟩ := ih _ st1 cs hcfg1 hvalid1 heq2
              refine ⟨st2, ?_, hcfg2, hvalid2⟩
              rw [run_succ]
              simp only [stepMemo, hrun1, hrun2]
  | prod production string =>
    cases hm : lookupMemo st.memo (.prodKey production string) with
    | some m =>
      obtain ⟨f', hf'⟩ := hvalid _ m hm
      have hmn : m = n := refRun_det cfg hf' h
      refine ⟨st, ?_, hcfg, hvalid⟩
      rw [run_succ]
      simp only [stepMemo, hm, hmn]
    | none =>
      have hstep := h
      rw [refRun_succ] at hstep
      simp only [stepRef] at hstep
      cases production with
      | nil =>
        have hn : (if string = ([] : Str) then 1 else 0) = n :=
          (Option.some.injEq _ _).mp hstep
        refine ⟨insertMemo st (.prodKey [] string) n, ?_, ?_, ?_⟩
        · rw [run_succ]
          simp only [stepMemo, hm, hn]
        · rw [insertMemo_cfg]; exact hcfg
        · exact validMemo_insertMemo hvalid ⟨fuel + 1, h⟩
      | cons first rest =>
        obtain ⟨st1, hrun1, hcfg1, hvalid1⟩ := ih _ st n hcfg hvalid hstep
        refine ⟨insertMemo st1 (.prodKey (first :: rest) string) n, ?_, ?_, ?_⟩
        · rw [run_succ]
          simp only [stepMemo, hm, hrun1]
        · rw [insertMemo_cfg]; exact hcfg1
        · exact validMemo_insertMemo hvalid1 ⟨fuel + 1, h⟩
  | splits first rest string i =>
    have hstep := h
    rw [refRun_succ] at hstep
    simp only [stepRef] at hstep
    by_cases hi : string.length < i
    · rw [if_pos hi] at hstep
      have hn : (0 : Nat) = n := (Option.some.injEq _ _).mp hstep
      refine ⟨st, ?_, hcfg, hvalid⟩
      rw [run_succ]
      simp only [stepMemo, if_pos hi, hn]
    · rw [if_neg hi] at hstep
      split at hstep
      · exact Option.noConfusion hstep
      · next _x fc heq1 =>
          obtain ⟨st1, hrun1, hcfg1, hvalid1⟩ := ih _ st fc hcfg hvalid heq1
          by_cases hfc : 0 < fc
          · rw [if_pos hfc] at hstep
            split at hstep
            · exact Option.noConfusion hstep
            · next _x rc heq2 =>
                split at hstep
                · exact Option.noConfusion hstep
                · next _x acc heq3 =>
                    cases hstep
                    obtain ⟨st2, hrun2, hcfg2, hvalid2⟩ := ih _ st1 rc hcfg1 hvalid1 heq2
                    obtain ⟨st3, hrun3, hcfg3, hvalid3⟩ := ih _ st2 acc hcfg2 hvalid2 heq3
                    refine ⟨st3, ?_, hcfg3, hvalid3⟩
                    rw [run_succ]
                    simp only [stepMemo, if_neg hi, hrun1, if_pos hfc, hrun2, hrun3]
          · rw [if_neg hfc] at hstep
            obtain ⟨st2, hrun2, hcfg2, hvalid2⟩ := ih _ st1 n hcfg1 hvalid1 hstep
            refine ⟨st2, ?_, hcfg2, hvalid2⟩
            rw [run_succ]
            simp only [stepMemo, if_neg hi, hrun1, if_neg hfc, hrun2]

/-- The memoized recursion simulates the brute-force reference at every
recursion bound. -/
theorem sim_all (cfg : CFG) : ∀ fuel, Sim cfg (refRun cfg fuel) (run fuel) := by
  intro fuel
  induction fuel with
  | zero => intro req st n _ _ h; rw [refRun_zero] at h; exact Option.noConfusion h
  | succ f ih => exact sim_step cfg f ih

/-- Summing production contributions splits over list append (with a larger
recursion bound for the longer list). -/
theorem refRun_prods_append (cfg : CFG) (s : Str) :
    ∀ (l1 : List Production) (f a b : Nat) (l2 : List Production),
      refRun cfg f (.prods l1 s) = some a → refRun cfg f (.prods l2 s) = some b →
      refRun cfg (f + l1.length) (.prods (l1 ++ l2) s) = some (a + b) := by
  intro l1
  induction l1 with
  | nil =>
    intro f a b l2 ha hb
    cases f with
    | zero => rw [refRun_zero] at ha; exact Option.noConfusion ha
    | succ g =>
      rw [refRun_succ] at ha
      simp only [stepRef] at ha
      cases ha
      simpa using hb
  | cons p ps ih =>
    intro f a b l2 ha hb
    cases f with
    | zero => rw [refRun_zero] at ha; exact Option.noConfusion ha
    | succ g =>
      rw [refRun_succ] at ha
      simp only [stepRef] at ha
      split at ha
      · exact Option.noConfusion ha
      · next _x c heq1 =>
          split at ha
          · exact Option.noConfusion ha
          · next _x d heq2 =>
              cases ha
              have hc' : refRun cfg (g + 1 + ps.length) (.prod p s) = some c :=
                refRun_mono cfg (by omega) _ _ heq1
              have hps : refRun cfg (g + 1) (.prods ps s) = some d :=
                refRun_mono_succ cfg g _ d heq2
              have happ := ih (g + 1) d b l2 hps hb
              have hfuel : g + 1 + (p :: ps).length = g + 1 + ps.length + 1 := by
                simp [List.length_cons]; omega
              rw [hfuel, refRun_succ]
              simp only [stepRef, List.cons_append, hc', happ]
              simp [Nat.add_assoc]

/-- add_rule appends the new production at the end of the left-hand side's
rule list. -/
theorem get_rules_add_rule_self (cfg : CFG) (nt : Symb) (p : Production) :
    get_rules (add_rule cfg nt p) nt = get_rules cfg nt ++ [p] := by
  show get_rules ⟨rulesAppend cfg.rules nt p, _, _⟩ nt = get_rules cfg nt ++ [p]
  unfold get_rules
  show (match lookupRules (rulesAppend cfg.rules nt p) nt with
    | some ps => ps | none => []) = _
  induction cfg.rules with
  | nil => simp [rulesAppend, lookupRules]
  | cons kv rest ih =>
    obtain ⟨k, ps⟩ := kv
    by_cases hk : k = nt
    · subst hk
      simp [rulesAppend, lookupRules]
    · simp only [rulesAppend, if_neg hk, lookupRules]
      exact ih

theorem mem_addSet_self (s : List Symb) (x : Symb) : x ∈ addSet s x := by
  unfold addSet
  split
  · assumption
  · simp

theorem mem_addSet_of_mem {s : List Symb} {x : Symb} (y : Symb) (h : x ∈ s) :
    x ∈ addSet s y := by
  unfold addSet
  split
  · exact h
  · simp [h]

theorem foldl_addSymbol_fst_mono {x : Symb} :
    ∀ (syms : List Symb) (acc : List Symb × List Symb),
      x ∈ acc.1 → x ∈ (syms.foldl addSymbol acc).1 := by
  intro syms
  induction syms with
  | nil => intro acc h; exact h
  | cons s ss ih =>
    intro acc h
    refine ih (addSymbol acc s) ?_
    unfold addSymbol
    split
    · exact mem_addSet_of_mem s h
    · exact h

theorem mem_nonterminals_add_rule_self (cfg : CFG) (nt : Symb) (p : Production) :
    nt ∈ (add_rule cfg nt p).non_terminals := by
  show nt ∈ (p.foldl addSymbol (addSet cfg.non_terminals nt, cfg.terminals)).1
  exact foldl_addSymbol_fst_mono p _ (mem_addSet_self _ _)

/-- If a successful check started from a grammar with an empty memo succeeds,
the final state carries the same grammar. -/
theorem check_frame {st : Checker} {S : Symb} {s : Str} {fuel : Nat}
    {r : List OutEvent × Bool × Nat} {st' : Checker}
    (h : check st S s fuel = some (r, st')) : st'.cfg = st.cfg := by
  unfold check at h
  split at h
  · cases h; rfl
  · split at h
    · exact Option.noConfusion h
    · next _x count st1 heq =>
        cases h
        exact run_frame fuel ⟨st.cfg, []⟩ _ count _ heq

/-- check reads the incoming state only through its grammar component (the
memo is cleared on entry). -/
theorem check_cfg_eq {st1 st2 : Checker} (hcfg : st1.cfg = st2.cfg)
    (S : Symb) (s : Str) (fuel : Nat) : check st1 S s fuel = check st2 S s fuel := by
  unfold check
  rw [hcfg]

/-- A check whose counting recursion exceeds the bound yields no result. -/
theorem check_run_none {st : Checker} {S : Symb} {s : Str} {fuel : Nat}
    (hS : S ∈ st.cfg.non_terminals)
    (hrun : run fuel ⟨st.cfg, []⟩ (.sym S s) = none) : check st S s fuel = none := by
  unfold check
  rw [if_neg (not_not_intro hS), hrun]

theorem mem_addSet_iff {s : List Symb} {x y : Symb} :
    x ∈ addSet s y ↔ x ∈ s ∨ x = y := by
  unfold addSet
  split
  · next hy =>
      constructor
      · exact Or.inl
      · rintro (hx | rfl)
        · exact hx
        · exact hy
  · simp [List.mem_append]

theorem mem_addSymbol_fst {acc : List Symb × List Symb} {a x : Symb} :
    x ∈ (addSymbol acc a).1 ↔ x ∈ acc.1 ∨ (x = a ∧ pyIsUpper a = true) := by
  unfold addSymbol
  by_cases ha : pyIsUpper a = true
  · rw [if_pos ha]
    simp [mem_addSet_iff, ha]
  · rw [if_neg ha]
    simp [ha]

theorem mem_addSymbol_snd {acc : List Symb × List Symb} {a x : Symb} :
    x ∈ (addSymbol acc a).2 ↔ x ∈ acc.2 ∨ (x = a ∧ pyIsUpper a = false) := by
  unfold addSymbol
  by_cases ha : pyIsUpper a = true
  · rw [if_pos ha]
    simp [ha]
  · rw [if_neg ha]
    have ha' : pyIsUpper a = false := by revert ha; cases pyIsUpper a <;> simp
    simp [mem_addSet_iff, ha']

/-- Membership in the non-terminal set produced by the classification loop of
add_rule. -/
theorem foldl_addSymbol_mem_fst (x : Symb) :
    ∀ (syms : List Symb) (acc : List Symb × List Symb),
      x ∈ (syms.foldl addSymbol acc).1 ↔
        x ∈ acc.1 ∨ (x ∈ syms ∧ pyIsUpper x = true) := by
  intro syms
  induction syms with
  | nil => intro acc; simp
  | cons a as ih =>
    intro acc
    rw [List.foldl_cons, ih, mem_addSymbol_fst]
    constructor
    · rintro ((hx | ⟨rfl, hu⟩) | ⟨hs, hu⟩)
      · exact Or.inl hx
      · exact Or.inr ⟨List.mem_cons_self _ _, hu⟩
      · exact Or.inr ⟨List.mem_cons_of_mem _ hs, hu⟩
    · rintro (hx | ⟨hs, hu⟩)
      · exact Or.inl (Or.inl hx)
      · rcases List.mem_cons.mp hs with rfl | hs'
        · exact Or.inl (Or.inr ⟨rfl, hu⟩)
        · exact Or.inr ⟨hs', hu⟩

/-- Membership in the terminal set produced by the classification loop of
add_rule. -/
theorem foldl_addSymbol_mem_snd (x : Symb) :
    ∀ (syms : List Symb) (acc : List Symb × List Symb),
      x ∈ (syms.foldl addSymbol acc).2 ↔
        x ∈ acc.2 ∨ (x ∈ syms ∧ pyIsUpper x = false) := by
  intro syms
  induction syms with
  | nil => intro acc; simp
  | cons a as ih =>
    intro acc
    rw [List.foldl_cons, ih, mem_addSymbol_snd]
    constructor
    · rintro ((hx | ⟨rfl, hu⟩) | ⟨hs, hu⟩)
      · exact Or.inl hx
      · exact Or.inr ⟨List.mem_cons_self _ _, hu⟩
      · exact Or.inr ⟨List.mem_cons_of_mem _ hs, hu⟩
    · rintro (hx | ⟨hs, hu⟩)
      · exact Or.inl (Or.inl hx)
      · rcases List.mem_cons.mp hs with rfl | hs'
        · exact Or.inl (Or.inr ⟨rfl, hu⟩)
        · exact Or.inr ⟨hs', hu⟩

theorem symbolsOfProds_append (a b : List Production) :
    symbolsOfProds (a ++ b) = symbolsOfProds a ++ symbolsOfProds b := by
  induction a with
  | nil => rfl
  | cons p ps ih => simp [symbolsOfProds, ih]

theorem mem_prodSymbols_rulesAppend {x nt : Symb} {p : Production} :
    ∀ rules, x ∈ prodSymbols (rulesAppend rules nt p) ↔
      x ∈ prodSymbols rules ∨ x ∈ p := by
  intro rules
  induction rules with
  | nil => simp [rulesAppend, prodSymbols, symbolsOfProds]
  | cons kv rest ih =>
    obtain ⟨k, ps⟩ := kv
    by_cases hk : k = nt
    · subst hk
      simp only [rulesAppend, if_pos rfl, prodSymbols, symbolsOfProds_append,
        List.mem_append, symbolsOfProds]
      tauto
    · simp only [rulesAppend, if_neg hk, prodSymbols, List.mem_append, ih]
      tauto

theorem mem_lhsKeys_rulesAppend {x nt : Symb} {p : Production} :
    ∀ rules, x ∈ lhsKeys (rulesAppend rules nt p) ↔ x ∈ lhsKeys rules ∨ x = nt := by
  intro rules
  induction rules with
  | nil => simp [rulesAppend, lhsKeys]
  | cons kv rest ih =>
    obtain ⟨k, ps⟩ := kv
    by_cases hk : k = nt
    · subst hk
      simp [rulesAppend, lhsKeys]
      tauto
    · simp only [rulesAppend, if_neg hk, lhsKeys, List.map_cons, List.mem_cons]
      rw [show lhsKeys (rulesAppend rest nt p) =
        List.map Prod.fst (rulesAppend rest nt p) from rfl] at ih
      rw [show lhsKeys rest = List.map Prod.fst rest from rfl] at ih
      rw [ih]
      tauto

/-- add_rule preserves the strengthened invariant when the registered
left-hand side is uppercase. -/
theorem strongInv_add_rule {cfg : CFG} {nt : Symb} {p : Production}
    (hup : pyIsUpper nt = true) (hinv : strongInv cfg) :
    strongInv (add_rule cfg nt p) := by
  obtain ⟨hnts, hterms, href, hlhs⟩ := hinv
  have hfst : ∀ y, y ∈ (add_rule cfg nt p).non_terminals ↔
      y ∈ addSet cfg.non_terminals nt ∨ (y ∈ p ∧ pyIsUpper y = true) := fun y =>
    foldl_addSymbol_mem_fst y p (addSet cfg.non_terminals nt, cfg.terminals)
  have hsnd : ∀ y, y ∈ (add_rule cfg nt p).terminals ↔
      y ∈ cfg.terminals ∨ (y ∈ p ∧ pyIsUpper y = false) := fun y =>
    foldl_addSymbol_mem_snd y p (addSet cfg.non_terminals nt, cfg.terminals)
  refine ⟨?_, ?_, ?_, ?_⟩
  · intro x hx
    rcases (hfst x).mp hx with hx' | ⟨_, hu⟩
    · rcases mem_addSet_iff.mp hx' with hx'' | rfl
      · exact hnts x hx''
      · exact hup
    · exact hu
  · intro x hx
    rcases (hsnd x).mp hx with hx' | ⟨_, hu⟩
    · exact hterms x hx'
    · exact hu
  · intro x hx
    rcases (@mem_prodSymbols_rulesAppend x nt p cfg.rules).mp hx
      with hold | hp
    · rcases href x hold with hn | ht
      · exact Or.inl ((hfst x).mpr (Or.inl (mem_addSet_iff.mpr (Or.inl hn))))
      · exact Or.inr ((hsnd x).mpr (Or.inl ht))
    · by_cases hu : pyIsUpper x = true
      · exact Or.inl ((hfst x).mpr (Or.inr ⟨hp, hu⟩))
      · have hu' : pyIsUpper x = false := by revert hu; cases pyIsUpper x <;> simp
        exact Or.inr ((hsnd x).mpr (Or.inr ⟨hp, hu'⟩))
  · intro x hx
    rcases (@mem_lhsKeys_rulesAppend x nt p cfg.rules).mp hx
      with hold | rfl
    · exact (hfst x).mpr (Or.inl (mem_addSet_iff.mpr (Or.inl (hlhs x hold))))
    · exact (hfst x).mpr (Or.inl (mem_addSet_iff.mpr (Or.inr rfl)))

theorem strongInv_empty : strongInv CFG.empty := by decide

theorem strongInv_addRules :
    ∀ (calls : List (Symb × Production)) (cfg : CFG), strongInv cfg →
      (∀ c ∈ calls, pyIsUpper c.1 = true) → strongInv (addRules cfg calls) := by
  intro calls
  induction calls with
  | nil => intro cfg h _; exact h
  | cons c cs ih =>
    intro cfg h hup
    show strongInv (addRules (add_rule cfg c.1 c.2) cs)
    exact ih _ (strongInv_add_rule (hup c (List.mem_cons_self _ _)) h)
      fun d hd => hup d (List.mem_cons_of_mem _ hd)

/-- The strengthened invariant implies the documented invariant: the two
symbol sets are separated by the uppercase test, hence disjoint. -/
theorem strongInv_implies {cfg : CFG} (h : strongInv cfg) : grammarInvariant cfg := by
  obtain ⟨hnts, hterms, href, hlhs⟩ := h
  refine ⟨?_, hlhs⟩
  intro x hx
  rcases href x hx with hn | ht
  · exact Or.inl ⟨hn, fun htm => absurd (hterms x htm) (by rw [hnts x hn]; simp)⟩
  · exact Or.inr ⟨fun hn => absurd (hnts x hn) (by rw [hterms x ht]; simp), ht⟩

/-- The left-recursive descent of cfgCat on the empty string: counting
derivations of S from the empty string re-enters itself through the first
split point of S -> S S before any memo entry is written, so no recursion
bound suffices. -/
theorem divCat_eps : ∀ f,
    run f stCat (.sym cS []) = none ∧
    run f stCat (.prods prodsCat []) = none ∧
    run f stCat (.prod [cS, cS] []) = none ∧
    run f stCat (.splits cS [cS] [] 0) = none
  | 0 => ⟨rfl, rfl, rfl, rfl⟩
  | f + 1 => by
    obtain ⟨h1, h2, h3, h4⟩ := divCat_eps f
    have e1 : lookupMemo stCat.memo (.symKey cS []) = none := rfl
    have e2 : isTerminal stCat.cfg cS = false := by decide
    have e3 : get_rules stCat.cfg cS = prodsCat := by decide
    have e4 : lookupMemo stCat.memo (.prodKey [cS, cS] []) = none := rfl
    refine ⟨?_, ?_, ?_, ?_⟩
    · rw [run_succ]
      simp only [stepMemo, e1, e2, e3, h2, Bool.false_eq_true, if_false]
    · rw [run_succ]
      show stepMemo (run f) stCat (.prods ([cS, cS] :: [[ca]]) []) = none
      simp only [stepMemo, h3]
    · rw [run_succ]
      simp only [stepMemo, e4, h4]
    · rw [run_succ]
      simp only [stepMemo, List.length_nil, List.take_zero, Nat.lt_irrefl, if_false, h1]

/-- The same divergence reached from the target string aaa: the very first
split point of S -> S S asks for the derivations of S from the empty
prefix. -/
theorem divCat_aaa : ∀ f,
    run f stCat (.sym cS sAAA) = none ∧
    run f stCat (.prods prodsCat sAAA) = none ∧
    run f stCat (.prod [cS, cS] sAAA) = none ∧
    run f stCat (.splits cS [cS] sAAA 0) = none
  | 0 => ⟨rfl, rfl, rfl, rfl⟩
  | f + 1 => by
    obtain ⟨h1, h2, h3, h4⟩ := divCat_aaa f
    obtain ⟨g1, _, _, _⟩ := divCat_eps f
    have e1 : lookupMemo stCat.memo (.symKey cS sAAA) = none := rfl
    have e2 : isTerminal stCat.cfg cS = false := by decide
    have e3 : get_rules stCat.cfg cS = prodsCat := by decide
    have e4 : lookupMemo stCat.memo (.prodKey [cS, cS] sAAA) = none := rfl
    refine ⟨?_, ?_, ?_, ?_⟩
    · rw [run_succ]
      simp only [stepMemo, e1, e2, e3, h2, Bool.false_eq_true, if_false]
    · rw [run_succ]
      show stepMemo (run f) stCat (.prods ([cS, cS] :: [[ca]]) sAAA) = none
      simp only [stepMemo, h3]
    · rw [run_succ]
      simp only [stepMemo, e4, h4]
    · rw [run_succ]
      have e5 : sAAA.take 0 = [] := rfl
      have e6 : ¬ sAAA.length < 0 := Nat.not_lt_zero _
      simp only [stepMemo, e5, e6, if_false, g1]

/-- The printed verdict of check follows the count exactly. -/
theorem classify_spec (n : Nat) :
    (classify n = .ambiguous ↔ 1 < n) ∧ (classify n = .notAmbiguous ↔ n = 1) ∧
    (classify n = .cannotDerive ↔ n = 0) := by
  unfold classify
  by_cases h1 : 1 < n
  · rw [if_pos h1]
    refine ⟨?_, ?_, ?_⟩ <;> simp [h1] <;> omega
  · rw [if_neg h1]
    by_cases h2 : n = 1
    · rw [if_pos h2]
      refine ⟨?_, ?_, ?_⟩ <;> simp [h2]
    · rw [if_neg h2]
      refine ⟨by simp [h1], by simp [h2], by simp; omega⟩

/-- C1: for every grammar and string, whenever the brute-force non-memoized
enumeration of production-choice/split-point derivations (refRun, following
the specification) completes within some recursion bound - which is what the
absence of left recursion guarantees - and yields count n, the memoized
countDerivations of the source completes within the same bound, from a fresh
memo, with exactly the same count, and without touching the grammar.  Counts
live in Nat, so they are non-negative by construction. -/
theorem countDerivations_refines_bruteforce (cfg : CFG) (symbol : Symb)
    (string : Str) (fuel n : Nat)
    (h : refRun cfg fuel (.sym symbol string) = some n) :
    ∃ st', run fuel ⟨cfg, []⟩ (.sym symbol string) = some (n, st') ∧ st'.cfg = cfg := by
  obtain ⟨st', h1, h2, _⟩ :=
    sim_all cfg fuel (.sym symbol string) ⟨cfg, []⟩ n rfl (validMemo_nil cfg) h
  exact ⟨st', h1, h2⟩

theorem countDerivations_refines_bruteforce_witness :
    refRun cfgNest 40 (.sym cS sAABB) = some 1 ∧
    ∃ st', run 40 ⟨cfgNest, []⟩ (.sym cS sAABB) = some (1, st') ∧ st'.cfg = cfgNest :=
  ⟨by decide, countDerivations_refines_bruteforce cfgNest cS sAABB 40 1 (by decide)⟩

/-- C2: for a registered start symbol, check returns the pair
(count > 1, count) computed from a fresh memo, prints the count, and
classifies ambiguous exactly when count > 1, unambiguous exactly when
count = 1 and unparsable exactly when count = 0; all three outcomes are
ordinary some-returns. -/
theorem check_classification (st : Checker) (S : Symb) (s : Str) (fuel n : Nat)
    (hS : S ∈ st.cfg.non_terminals)
    (hcount : (run fuel ⟨st.cfg, []⟩ (.sym S s)).map Prod.fst = some n) :
    (∃ st', check st S s fuel =
      some (([.checking s S, .parseTreeCount n, classify n], decide (1 < n), n), st')) ∧
    (classify n = .ambiguous ↔ 1 < n) ∧
    (classify n = .notAmbiguous ↔ n = 1) ∧
    (classify n = .cannotDerive ↔ n = 0) := by
  refine ⟨?_, (classify_spec n).1, (classify_spec n).2.1, (classify_spec n).2.2⟩
  cases hr : run fuel ⟨st.cfg, []⟩ (.sym S s) with
  | none => rw [hr] at hcount; exact Option.noConfusion hcount
  | some q =>
    obtain ⟨m, stc⟩ := q
    rw [hr] at hcount
    simp only [Option.map_some', Option.some.injEq] at hcount
    subst hcount
    refine ⟨stc, ?_⟩
    unfold check
    rw [if_neg (not_not_intro hS), hr]

theorem check_classification_witness :
    cS ∈ cfgRight.non_terminals ∧
    (run 15 ⟨cfgRight, []⟩ (.sym cS ['a'])).map Prod.fst = some 1 ∧
    ((∃ st', check ⟨cfgRight, []⟩ cS ['a'] 15 =
      some (([.checking ['a'] cS, .parseTreeCount 1, classify 1], decide (1 < 1), 1), st')) ∧
    (classify 1 = .ambiguous ↔ 1 < 1) ∧
    (classify 1 = .notAmbiguous ↔ 1 = 1) ∧
    (classify 1 = .cannotDerive ↔ 1 = 0)) :=
  ⟨by decide, by decide,
    check_classification ⟨cfgRight, []⟩ cS ['a'] 15 1 (by decide) (by decide)⟩

/-- C3: an unregistered start symbol is reported through the distinct
error print (modelled as the errorInvalidStart event), the returned count is
0 by convention, and no counting recursion runs (the final memo is the
cleared, empty one); a registered start symbol - even one deriving the
string in zero ways - never produces that error report, so the two outcomes
are distinguishable by the caller. -/
theorem check_invalid_start (st : Checker) (S : Symb) (s : Str) (fuel : Nat)
    (h : S ∉ st.cfg.non_terminals) :
    check st S s fuel = some (([.errorInvalidStart S], false, 0), ⟨st.cfg, []⟩) ∧
    ∀ S' s' fuel' evts b k st', S' ∈ st.cfg.non_terminals →
      check st S' s' fuel' = some ((evts, b, k), st') →
      ∀ X, evts ≠ [.errorInvalidStart X] := by
  constructor
  · unfold check
    rw [if_pos h]
  · intro S' s' fuel' evts b k st' hS' hck X
    unfold check at hck
    rw [if_neg (not_not_intro hS')] at hck
    split at hck
    · exact Option.noConfusion hck
    · next _x count st1 heq =>
        cases hck
        simp

theorem check_invalid_start_witness :
    cx ∉ cfgRight.non_terminals ∧
    check ⟨cfgRight, []⟩ cx sAAA 5 =
      some (([.errorInvalidStart cx], false, 0), ⟨cfgRight, []⟩) :=
  ⟨by decide, (check_invalid_start ⟨cfgRight, []⟩ cx sAAA 5 (by decide)).1⟩

/-- C4, counterexample: the claim quantifies over every sequence of add_rule
calls, but add_rule accepts a lowercase left-hand side; after the single call
add_rule("a", ["a"]) the symbol "a" is registered as a left-hand side (hence
a non-terminal) and also classified as a terminal on the right-hand side, so
it lies in both sets and the exactly-one invariant fails. -/
theorem grammar_invariant_counterexample :
    ¬ grammarInvariant (addRules CFG.empty [(ca, [ca])]) := by decide

/-- C4, amended: the invariant does hold after every call of any add_rule
sequence in which each registered left-hand side is uppercase in the sense of
Python str.isupper - the convention the program's input layer enforces. -/
theorem grammar_invariant_upper_lhs (calls : List (Symb × Production))
    (h : ∀ c ∈ calls, pyIsUpper c.1 = true) :
    grammarInvariant (addRules CFG.empty calls) :=
  strongInv_implies (strongInv_addRules calls CFG.empty strongInv_empty h)

theorem grammar_invariant_upper_lhs_witness :
    (∀ c ∈ [(cS, [ca, cS]), (cS, ([] : Production)), (cS, [cA])], pyIsUpper c.1 = true) ∧
    grammarInvariant
      (addRules CFG.empty [(cS, [ca, cS]), (cS, ([] : Production)), (cS, [cA])]) :=
  ⟨by decide, grammar_invariant_upper_lhs _ (by decide)⟩

/-- C5, amended: on the grammar S -> S S | a the query check(S, "aaa") never
terminates: the grammar is left-recursive, counting derivations of S from the
empty prefix of the first split point re-enters itself before any memo entry
is written, and the recursion exceeds every depth bound, so no count (in
particular not 2) is ever produced.  This matches the left-recursion
limitation the source itself documents. -/
theorem check_catalan_grammar_diverges (fuel : Nat) (memo0 : Memo) :
    check ⟨cfgCat, memo0⟩ cS sAAA fuel = none :=
  check_run_none (show cS ∈ cfgCat.non_terminals by decide) ((divCat_aaa fuel).1)

/-- C5, counterexample to the claim as stated: check(S, "aaa") on
S -> S S | a yields no result at any recursion depth whatsoever - the
function of the bound is constantly none - so it neither terminates nor
yields count 2 with outcome Ambiguous. -/
theorem check_catalan_no_result :
    (fun fuel => check ⟨cfgCat, []⟩ cS sAAA fuel) = fun _ => none := by
  funext fuel
  exact check_run_none (show cS ∈ cfgCat.non_terminals by decide) ((divCat_aaa fuel).1)

/-- C6, amended: duplicate productions are preserved and contribute
additively.  After add_rule(N, p) the rule list of N is the old list with one
more copy of p at the end, and the derivation count of N for s is a + b where
a is the combined contribution of the previously registered productions and b
the contribution of the one extra copy of p, both evaluated in the extended
grammar.  (Evaluating the increment in the original grammar, as the claim
states, fails when N is reachable from its own productions, because the extra
copy also raises the counts of nested sub-derivations.) -/
theorem duplicate_production_additive (cfg : CFG) (N : Symb) (p : Production)
    (s : Str) (f a b : Nat)
    (ha : refRun (add_rule cfg N p) f (.prods (get_rules cfg N) s) = some a)
    (hb : refRun (add_rule cfg N p) f (.prod p s) = some b) :
    ∃ F st', run F ⟨add_rule cfg N p, []⟩ (.sym N s) = some (a + b, st') := by
  have h0 : refRun (add_rule cfg N p) f (.prods [] s) = some 0 := by
    cases f with
    | zero => rw [refRun_zero] at hb; exact Option.noConfusion hb
    | succ g => rw [refRun_succ]; rfl
  have hp1 : refRun (add_rule cfg N p) (f + 1) (.prods [p] s) = some b := by
    rw [refRun_succ]
    simp only [stepRef, hb, h0, Nat.add_zero]
  have happ := refRun_prods_append (add_rule cfg N p) s (get_rules cfg N) (f + 1) a b [p]
    (refRun_mono_succ (add_rule cfg N p) f _ a ha) hp1
  have hN : N ∈ (add_rule cfg N p).non_terminals := mem_nonterminals_add_rule_self cfg N p
  have ht : isTerminal (add_rule cfg N p) N = false := by simp [isTerminal, hN]
  have hsym : refRun (add_rule cfg N p) (f + 1 + (get_rules cfg N).length + 1)
      (.sym N s) = some (a + b) := by
    rw [refRun_succ]
    simp only [stepRef, ht, Bool.false_eq_true, if_false, get_rules_add_rule_self, happ]
  obtain ⟨st', hrun, _, _⟩ := sim_all (add_rule cfg N p)
    (f + 1 + (get_rules cfg N).length + 1) (.sym N s) ⟨add_rule cfg N p, []⟩ (a + b)
    rfl (validMemo_nil _) hsym
  exact ⟨_, st', hrun⟩

theorem duplicate_production_additive_witness :
    refRun cfgRightDup 15 (.prods (get_rules cfgRight cS) ['a']) = some 1 ∧
    refRun cfgRightDup 15 (.prod [ca] ['a']) = some 1 ∧
    ∃ F st', run F ⟨cfgRightDup, []⟩ (.sym cS ['a']) = some (1 + 1, st') :=
  ⟨by decide, by decide,
    duplicate_production_additive cfgRight cS [ca] ['a'] 15 1 1 (by decide) (by decide)⟩

/-- C6, counterexample to the claim as stated: in S -> a S | a the production
[a] is already registered; duplicating it changes the count of "aa" from 1 to
2, yet countProductionDerivations([a], "aa") in the original grammar is 0, so
the count does not increase by the original-grammar per-copy value
(1 + 0 is not 2).  The extra copy also doubles the nested count of the
suffix "a". -/
theorem duplicate_production_not_original_count :
    (run 25 ⟨cfgRight, []⟩ (.sym cS sAA)).map Prod.fst = some 1 ∧
    (run 25 ⟨cfgRight, []⟩ (.prod [ca] sAA)).map Prod.fst = some 0 ∧
    (run 25 ⟨cfgRightDup, []⟩ (.sym cS sAA)).map Prod.fst = some 2 ∧
    (1 : Nat) + 0 ≠ 2 :=
  ⟨by decide, by decide, by decide, by decide⟩

/-- C7: a terminal symbol T derives the string s in exactly one way when s
equals T's own text as a whole string, and in zero ways otherwise; the
top-level query succeeds from the fresh memo and records exactly that
count. -/
theorem terminal_exact_match (cfg : CFG) (T : Symb) (s : Str) (fuel : Nat)
    (h : T ∉ cfg.non_terminals) :
    run (fuel + 1) ⟨cfg, []⟩ (.sym T s) =
      some (if s = T then 1 else 0,
        ⟨cfg, [(MemoKey.symKey T s, if s = T then 1 else 0)]⟩) := by
  have ht : isTerminal cfg T = true := by simp [isTerminal, h]
  rw [run_succ]
  have e1 : lookupMemo (⟨cfg, []⟩ : Checker).memo (.symKey T s) = none := rfl
  simp only [stepMemo, e1, ht, if_true, insertMemo]

theorem terminal_exact_match_witness :
    cab ∉ cfgAB.non_terminals ∧
    run 5 ⟨cfgAB, []⟩ (.sym cab sAB) =
      some (if sAB = cab then 1 else 0,
        ⟨cfgAB, [(MemoKey.symKey cab sAB, if sAB = cab then 1 else 0)]⟩) :=
  ⟨by decide, terminal_exact_match cfgAB cab sAB 4 (by decide)⟩

/-- C8: a successful check never changes the grammar model - the rules
mapping, the non-terminal set and the terminal set of the final checker state
are those of the initial state; only the memo component differs. -/
theorem check_preserves_grammar (st : Checker) (S : Symb) (s : Str) (fuel : Nat)
    (r : List OutEvent × Bool × Nat) (st' : Checker)
    (h : check st S s fuel = some (r, st')) :
    st'.cfg.rules = st.cfg.rules ∧ st'.cfg.non_terminals = st.cfg.non_terminals ∧
      st'.cfg.terminals = st.cfg.terminals := by
  rw [check_frame h]
  exact ⟨rfl, rfl, rfl⟩

theorem check_preserves_grammar_witness :
    (Checker.mk cfgEps [(MemoKey.symKey cS [], 1), (MemoKey.prodKey [] [], 1)]).cfg.rules =
      (Checker.mk cfgEps []).cfg.rules ∧
    (Checker.mk cfgEps
        [(MemoKey.symKey cS [], 1), (MemoKey.prodKey [] [], 1)]).cfg.non_terminals =
      (Checker.mk cfgEps []).cfg.non_terminals ∧
    (Checker.mk cfgEps [(MemoKey.symKey cS [], 1), (MemoKey.prodKey [] [], 1)]).cfg.terminals =
      (Checker.mk cfgEps []).cfg.terminals :=
  check_preserves_grammar ⟨cfgEps, []⟩ cS [] 10
    ([.checking [] cS, .parseTreeCount 1, .notAmbiguous], false, 1)
    ⟨cfgEps, [(MemoKey.symKey cS [], 1), (MemoKey.prodKey [] [], 1)]⟩ (by decide)

/-- C9: the memo is cleared at the start of every top-level check, so an
immediately repeated identical query - running on whatever memo the first
call left behind - returns exactly the same report, flag, count and final
state. -/
theorem check_idempotent (st : Checker) (S : Symb) (s : Str) (fuel : Nat)
    (r : List OutEvent × Bool × Nat) (st1 : Checker)
    (h : check st S s fuel = some (r, st1)) :
    check st1 S s fuel = some (r, st1) := by
  rw [check_cfg_eq (check_frame h) S s fuel]
  exact h

theorem check_idempotent_witness :
    check ⟨cfgEps, [(MemoKey.symKey cS [], 1), (MemoKey.prodKey [] [], 1)]⟩ cS [] 10 =
      some (([.checking [] cS, .parseTreeCount 1, .notAmbiguous], false, 1),
        ⟨cfgEps, [(MemoKey.symKey cS [], 1), (MemoKey.prodKey [] [], 1)]⟩) :=
  check_idempotent ⟨cfgEps, []⟩ cS [] 10
    ([.checking [] cS, .parseTreeCount 1, .notAmbiguous], false, 1)
    ⟨cfgEps, [(MemoKey.symKey cS [], 1), (MemoKey.prodKey [] [], 1)]⟩ (by decide)

/-- C10: a registered non-terminal with no rules entry of its own (for
example one that only ever appeared on a right-hand side) yields count 0 for
every string, including the empty one; the query returns normally, and the
final state still carries the original grammar - rules.get never creates an
entry. -/
theorem ruleless_nonterminal_zero (cfg : CFG) (N : Symb) (s : Str) (fuel : Nat)
    (h1 : N ∈ cfg.non_terminals) (h2 : lookupRules cfg.rules N = none) :
    run (fuel + 2) ⟨cfg, []⟩ (.sym N s) = some (0, ⟨cfg, [(MemoKey.symKey N s, 0)]⟩) := by
  have ht : isTerminal cfg N = false := by simp [isTerminal, h1]
  have hr : get_rules cfg N = [] := by unfold get_rules; rw [h2]
  have hinner : run (fuel + 1) ⟨cfg, []⟩ (.prods [] s) = some (0, ⟨cfg, []⟩) := by
    rw [run_succ]; rfl
  rw [run_succ]
  have e1 : lookupMemo (⟨cfg, []⟩ : Checker).memo (.symKey N s) = none := rfl
  simp only [stepMemo, e1, ht, hr, hinner, Bool.false_eq_true, if_false, insertMemo]

theorem ruleless_nonterminal_zero_witness :
    cA ∈ cfgNoRule.non_terminals ∧ lookupRules cfgNoRule.rules cA = none ∧
    run 7 ⟨cfgNoRule, []⟩ (.sym cA cx) = some (0, ⟨cfgNoRule, [(MemoKey.symKey cA cx, 0)]⟩) :=
  ⟨by decide, by decide, ruleless_nonterminal_zero cfgNoRule cA cx 5 (by decide) (by decide)⟩
